import Mathlib

/-!
Shallow embedding of the Mandelbrot notebook `mandelbrot_numba.ipynb`.

The notebook's real (double) arithmetic is modelled exactly over `ℚ`;
a complex number is a pair `(re, im) : ℚ × ℚ`; the `np.uint8` image buffer
is a total function from `(row, col)` pixel coordinates to `ℕ`, with every
store reduced modulo 256 (numpy uint8 wraparound on assignment).
-/

/-- The escape orbit `z_{n+1} = z_n * z_n + c`, `z_0 = 0`, `c = (cr, ci)`,
exactly as iterated by the loop body of `mandel` (`z = z*z + c`); squaring the
complex pair `(zr, zi)` gives real part `zr*zr - zi*zi` and imaginary part
`zr*zi + zi*zr`. -/
def zSeq (cr ci : ℚ) : ℕ → ℚ × ℚ
  | 0 => (0, 0)
  | n + 1 =>
    ((zSeq cr ci n).1 * (zSeq cr ci n).1 - (zSeq cr ci n).2 * (zSeq cr ci n).2 + cr,
     (zSeq cr ci n).1 * (zSeq cr ci n).2 + (zSeq cr ci n).2 * (zSeq cr ci n).1 + ci)

/-- The escape test of `mandel` at loop index `i`: after the update producing
`z_{i+1}`, the squared modulus `z.real*z.real + z.imag*z.imag` reaches 4. -/
def escapesAt (cr ci : ℚ) (i : ℕ) : Prop :=
  4 ≤ (zSeq cr ci (i + 1)).1 * (zSeq cr ci (i + 1)).1 +
      (zSeq cr ci (i + 1)).2 * (zSeq cr ci (i + 1)).2

instance escapesAt.dec (cr ci : ℚ) (i : ℕ) : Decidable (escapesAt cr ci i) := by
  unfold escapesAt; infer_instance

/-- The `for i in range(max_iters)` loop of `mandel`: current value `(zr, zi)`,
next loop index `i`, remaining iterations `fuel`.  Each step performs
`z = z*z + c`, returns `i` as soon as `z.real*z.real + z.imag*z.imag >= 4`,
and falls through to return `max_iters` (here `i + fuel` stays constant, so
exhausting the fuel returns the original `max_iters`). -/
def mandelLoop (cr ci zr zi : ℚ) (i fuel : ℕ) : ℕ :=
  match fuel with
  | 0 => i
  | fuel + 1 =>
    let zr2 := zr * zr - zi * zi + cr
    let zi2 := zr * zi + zi * zr + ci
    if 4 ≤ zr2 * zr2 + zi2 * zi2 then i
    else mandelLoop cr ci zr2 zi2 (i + 1) fuel

/-- Function `mandel(x, y, max_iters)` from the notebook: `c = complex(x, y)`, `z = 0.0j`,
loop `max_iters` times updating `z = z*z + c` and returning the first index at
which the squared modulus reaches 4, else `max_iters`. -/
def mandel (x y : ℚ) (max_iters : ℕ) : ℕ :=
  mandelLoop x y 0 0 0 max_iters

/-- The loop `mandelLoop` started at loop index `i` with the orbit value `z_i`. -/
def mandelFrom (cr ci : ℚ) (i fuel : ℕ) : ℕ :=
  mandelLoop cr ci (zSeq cr ci i).1 (zSeq cr ci i).2 i fuel

lemma mandel_eq_mandelFrom (x y : ℚ) (N : ℕ) : mandel x y N = mandelFrom x y 0 N := rfl

lemma zSeq_succ_fst (cr ci : ℚ) (n : ℕ) :
    (zSeq cr ci (n + 1)).1 =
      (zSeq cr ci n).1 * (zSeq cr ci n).1 - (zSeq cr ci n).2 * (zSeq cr ci n).2 + cr := rfl

lemma zSeq_succ_snd (cr ci : ℚ) (n : ℕ) :
    (zSeq cr ci (n + 1)).2 =
      (zSeq cr ci n).1 * (zSeq cr ci n).2 + (zSeq cr ci n).2 * (zSeq cr ci n).1 + ci := rfl

lemma mandelFrom_succ_pos (cr ci : ℚ) (i fuel : ℕ) (h : escapesAt cr ci i) :
    mandelFrom cr ci i (fuel + 1) = i := by
  unfold escapesAt at h
  rw [zSeq_succ_fst, zSeq_succ_snd] at h
  unfold mandelFrom
  conv_lhs => rw [mandelLoop]
  rw [if_pos h]

lemma mandelFrom_succ_neg (cr ci : ℚ) (i fuel : ℕ) (h : ¬ escapesAt cr ci i) :
    mandelFrom cr ci i (fuel + 1) = mandelFrom cr ci (i + 1) fuel := by
  unfold escapesAt at h
  rw [zSeq_succ_fst, zSeq_succ_snd] at h
  unfold mandelFrom
  conv_lhs => rw [mandelLoop]
  rw [if_neg h, zSeq_succ_fst, zSeq_succ_snd]

/-- Characterisation of the loop: starting at index `i` with `fuel` iterations
left, it returns either the least escaping index in `[i, i+fuel)`, or `i+fuel`
when no index in that window escapes. -/
lemma mandelFrom_char (cr ci : ℚ) :
    ∀ (fuel i : ℕ),
      (i ≤ mandelFrom cr ci i fuel ∧ mandelFrom cr ci i fuel < i + fuel ∧
        escapesAt cr ci (mandelFrom cr ci i fuel) ∧
        ∀ j, i ≤ j → j < mandelFrom cr ci i fuel → ¬ escapesAt cr ci j) ∨
      (mandelFrom cr ci i fuel = i + fuel ∧
        ∀ j, i ≤ j → j < i + fuel → ¬ escapesAt cr ci j) := by
  intro fuel
  induction fuel with
  | zero =>
    intro i
    right
    refine ⟨rfl, ?_⟩
    intro j hj hj2
    omega
  | succ fuel ih =>
    intro i
    by_cases h : escapesAt cr ci i
    · left
      rw [mandelFrom_succ_pos cr ci i fuel h]
      refine ⟨le_refl i, by omega, h, ?_⟩
      intro j hj hj2
      omega
    · rw [mandelFrom_succ_neg cr ci i fuel h]
      rcases ih (i + 1) with ⟨h1, h2, h3, h4⟩ | ⟨h1, h2⟩
      · left
        refine ⟨by omega, by omega, h3, ?_⟩
        intro j hj hj2
        rcases Nat.eq_or_lt_of_le hj with rfl | hj3
        · exact h
        · exact h4 j hj3 hj2
      · right
        refine ⟨by omega, ?_⟩
        intro j hj hj2
        rcases Nat.eq_or_lt_of_le hj with rfl | hj3
        · exact h
        · exact h2 j hj3 (by omega)

/-- Characterisation of `mandel`: it returns either the least escaping index
below the cap, or the cap itself when no index below the cap escapes. -/
lemma mandel_char (x y : ℚ) (N : ℕ) :
    (mandel x y N < N ∧ escapesAt x y (mandel x y N) ∧
      ∀ j, j < mandel x y N → ¬ escapesAt x y j) ∨
    (mandel x y N = N ∧ ∀ j, j < N → ¬ escapesAt x y j) := by
  rw [mandel_eq_mandelFrom]
  rcases mandelFrom_char x y N 0 with ⟨_, h2, h3, h4⟩ | ⟨h1, h2⟩
  · left
    exact ⟨by omega, h3, fun j hj => h4 j (Nat.zero_le j) hj⟩
  · right
    exact ⟨by omega, fun j hj => h2 j (Nat.zero_le j) (by omega)⟩

lemma mandel_le_cap (x y : ℚ) (N : ℕ) : mandel x y N ≤ N := by
  rcases mandel_char x y N with ⟨h1, _, _⟩ | ⟨h1, _⟩ <;> omega

/-- Instrumented variant of the `mandel` loop that also counts how many times
the update `z = z*z + c` is executed. -/
def mandelLoopSteps (cr ci zr zi : ℚ) (i fuel steps : ℕ) : ℕ × ℕ :=
  match fuel with
  | 0 => (i, steps)
  | fuel + 1 =>
    let zr2 := zr * zr - zi * zi + cr
    let zi2 := zr * zi + zi * zr + ci
    if 4 ≤ zr2 * zr2 + zi2 * zi2 then (i, steps + 1)
    else mandelLoopSteps cr ci zr2 zi2 (i + 1) fuel (steps + 1)

/-- Result of `mandel` together with the number of updates it executes. -/
def mandelSteps (x y : ℚ) (N : ℕ) : ℕ × ℕ :=
  mandelLoopSteps x y 0 0 0 N 0

lemma mandelLoopSteps_spec (cr ci : ℚ) :
    ∀ (fuel : ℕ) (zr zi : ℚ) (i s : ℕ),
      (mandelLoopSteps cr ci zr zi i fuel s).1 = mandelLoop cr ci zr zi i fuel ∧
      (mandelLoopSteps cr ci zr zi i fuel s).2 ≤ s + fuel := by
  intro fuel
  induction fuel with
  | zero =>
    intro zr zi i s
    exact ⟨rfl, by simp [mandelLoopSteps]⟩
  | succ fuel ih =>
    intro zr zi i s
    simp only [mandelLoopSteps, mandelLoop]
    split_ifs with h
    · exact ⟨rfl, by omega⟩
    · exact ⟨(ih _ _ _ _).1, le_trans (ih _ _ _ _).2 (by omega)⟩

lemma mandelSteps_fst (x y : ℚ) (N : ℕ) : (mandelSteps x y N).1 = mandel x y N :=
  (mandelLoopSteps_spec x y N 0 0 0 0).1

lemma mandelSteps_le (x y : ℚ) (N : ℕ) : (mandelSteps x y N).2 ≤ N := by
  have h := (mandelLoopSteps_spec x y N 0 0 0 0).2
  unfold mandelSteps
  omega

lemma zSeq_zero_zero (n : ℕ) : zSeq 0 0 n = (0, 0) := by
  induction n with
  | zero => rfl
  | succ n ih => simp [zSeq, ih]

lemma not_escapesAt_zero_zero (j : ℕ) : ¬ escapesAt 0 0 j := by
  unfold escapesAt
  rw [zSeq_zero_zero]
  norm_num

lemma mandel_zero_zero (N : ℕ) : mandel 0 0 N = N := by
  rcases mandel_char 0 0 N with ⟨_, h2, _⟩ | ⟨h1, _⟩
  · exact absurd h2 (not_escapesAt_zero_zero _)
  · exact h1

lemma escapesAt_two_zero : escapesAt 2 0 0 := by
  unfold escapesAt
  norm_num [zSeq]

lemma mandel_two_zero (N : ℕ) (h : 0 < N) : mandel 2 0 N = 0 := by
  obtain ⟨M, rfl⟩ := Nat.exists_eq_succ_of_ne_zero (Nat.pos_iff_ne_zero.mp h)
  rw [mandel_eq_mandelFrom]
  exact mandelFrom_succ_pos 2 0 0 M escapesAt_two_zero

/-- If `mandel` reports an escape (result below the cap), the same index is
reported under every cap exceeding it. -/
lemma mandel_escape_stable (x y : ℚ) (N : ℕ) (hlt : mandel x y N < N) :
    ∀ M, mandel x y N < M → mandel x y M = mandel x y N := by
  intro M hM
  rcases mandel_char x y N with ⟨_, h2, h3⟩ | ⟨h1, _⟩
  · rcases mandel_char x y M with ⟨_, h2m, h3m⟩ | ⟨h1m, h2m⟩
    · rcases lt_trichotomy (mandel x y M) (mandel x y N) with hc | hc | hc
      · exact absurd h2m (h3 _ hc)
      · exact hc
      · exact absurd h2 (h3m _ hc)
    · exact absurd h2 (h2m _ hM)
  · omega

lemma mandel_cap_mono (x y : ℚ) (N1 N2 : ℕ) (h : N1 ≤ N2) :
    mandel x y N1 ≤ mandel x y N2 := by
  rcases mandel_char x y N1 with ⟨hlt, h2, _⟩ | ⟨h1, h2⟩
  · rw [mandel_escape_stable x y N1 hlt N2 (by omega)]
  · rcases mandel_char x y N2 with ⟨_, h2m, h3m⟩ | ⟨h1m, _⟩
    · by_contra hc
      push_neg at hc
      exact h2 _ (by omega) h2m
    · omega

/-- A store `image[y, x] = v` into the `np.uint8` buffer: numpy reduces the
stored value modulo 256. The buffer is a total function on `(row, col)`. -/
def writeU8 (image : ℕ × ℕ → ℕ) (y x v : ℕ) : ℕ × ℕ → ℕ :=
  fun p => if p = (y, x) then v % 256 else image p

/-- Quantity `pixel_size_x = (max_x - min_x) / width` from `create_fractal`. -/
def pixel_size_x (min_x max_x : ℚ) (width : ℕ) : ℚ := (max_x - min_x) / width

/-- Quantity `pixel_size_y = (max_y - min_y) / height` from `create_fractal`. -/
def pixel_size_y (min_y max_y : ℚ) (height : ℕ) : ℚ := (max_y - min_y) / height

/-- Function `create_fractal(min_x, max_x, min_y, max_y, image, iters)` from the
notebook, sequential interpretation.  `height` and `width` stand for
`image.shape[0]` and `image.shape[1]` (the function buffer itself carries no
shape).  Outer loop over columns `x`, inner loop over rows `y`, each store
`image[y, x] = mandel(real, imag, iters)`. -/
def create_fractal (min_x max_x min_y max_y : ℚ) (image : ℕ × ℕ → ℕ)
    (iters height width : ℕ) : ℕ × ℕ → ℕ :=
  (List.range width).foldl
    (fun img (x : ℕ) =>
      let real : ℚ := min_x + (x : ℚ) * pixel_size_x min_x max_x width
      (List.range height).foldl
        (fun img (y : ℕ) =>
          let imag : ℚ := min_y + (y : ℚ) * pixel_size_y min_y max_y height
          writeU8 img y x (mandel real imag iters))
        img)
    image

/-- The `@autojit`-decorated `mandel` of the notebook: the decorated function
body is textually identical to the interpreted one. -/
def mandelLoop_jit (cr ci zr zi : ℚ) (i fuel : ℕ) : ℕ :=
  match fuel with
  | 0 => i
  | fuel + 1 =>
    let zr2 := zr * zr - zi * zi + cr
    let zi2 := zr * zi + zi * zr + ci
    if 4 ≤ zr2 * zr2 + zi2 * zi2 then i
    else mandelLoop_jit cr ci zr2 zi2 (i + 1) fuel

/-- Function `mandel` as redefined under `@autojit`. -/
def mandel_jit (x y : ℚ) (max_iters : ℕ) : ℕ :=
  mandelLoop_jit x y 0 0 0 max_iters

/-- Function `create_fractal` as redefined under `@autojit`; body identical to the
interpreted version but calling the jitted `mandel`. -/
def create_fractal_jit (min_x max_x min_y max_y : ℚ) (image : ℕ × ℕ → ℕ)
    (iters height width : ℕ) : ℕ × ℕ → ℕ :=
  (List.range width).foldl
    (fun img (x : ℕ) =>
      let real : ℚ := min_x + (x : ℚ) * pixel_size_x min_x max_x width
      (List.range height).foldl
        (fun img (y : ℕ) =>
          let imag : ℚ := min_y + (y : ℚ) * pixel_size_y min_y max_y height
          writeU8 img y x (mandel_jit real imag iters))
        img)
    image

/-- Binding `mandel_gpu = cuda.jit(restype=uint32, argtypes=[f8, f8, uint32],
device=True)(mandel)`: the device compilation wraps the current (jitted)
`mandel` unchanged. -/
def mandel_gpu : ℚ → ℚ → ℕ → ℕ := mandel_jit

/-- Python `range(start, stop, step)` for a positive `step`: the ascending
arithmetic progression `start, start + step, ...` strictly below `stop`. -/
def strideList (start stop step : ℕ) : List ℕ :=
  (List.range ((stop - start + step - 1) / step)).map fun k => start + k * step

/-- The global thread indices along one launch axis: block index `b` in
`range(gridDim)`, thread index `t` in `range(blockDim)`, global index
`blockDim * b + t` (this is what `cuda.grid` returns per axis). -/
def axisThreads (gridDim blockDim : ℕ) : List ℕ :=
  (List.range gridDim).flatMap fun b => (List.range blockDim).map fun t => blockDim * b + t

/-- The body of `mandel_kernel` as executed by one device thread whose
`cuda.grid(2)` is `(startX, startY)`, with `gridX = gridDim.x * blockDim.x`
and `gridY = gridDim.y * blockDim.y`: two grid-stride loops
`for x in range(startX, width, gridX)` / `for y in range(startY, height,
gridY)`, storing `image[y, x] = mandel_gpu(real, imag, iters)`. -/
def mandel_kernel_thread (min_x max_x min_y max_y : ℚ) (image : ℕ × ℕ → ℕ)
    (iters height width startX startY gridX gridY : ℕ) : ℕ × ℕ → ℕ :=
  (strideList startX width gridX).foldl
    (fun img (x : ℕ) =>
      let real : ℚ := min_x + (x : ℚ) * pixel_size_x min_x max_x width
      (strideList startY height gridY).foldl
        (fun img (y : ℕ) =>
          let imag : ℚ := min_y + (y : ℚ) * pixel_size_y min_y max_y height
          writeU8 img y x (mandel_gpu real imag iters))
        img)
    image

/-- The launch `mandel_kernel[griddim, blockdim](...)`: every thread of the
2D grid of 2D blocks runs the kernel body on the shared device buffer.
Threads write disjoint pixels, so they are sequenced in an arbitrary fixed
order (x-axis threads outer, y-axis threads inner). -/
def mandel_kernel_launch (griddim blockdim : ℕ × ℕ) (min_x max_x min_y max_y : ℚ)
    (image : ℕ × ℕ → ℕ) (iters height width : ℕ) : ℕ × ℕ → ℕ :=
  (axisThreads griddim.1 blockdim.1).foldl
    (fun img sx =>
      (axisThreads griddim.2 blockdim.2).foldl
        (fun img sy =>
          mandel_kernel_thread min_x max_x min_y max_y img iters height width
            sx sy (griddim.1 * blockdim.1) (griddim.2 * blockdim.2))
        img)
    image

/-- Call `cuda.to_device(gimage)`: allocates a device copy of the host buffer. -/
def to_device (host : ℕ × ℕ → ℕ) : ℕ × ℕ → ℕ := host

/-- Call `d_image.to_host()`: copies the device buffer back to the host. -/
def to_host (device_image : ℕ × ℕ → ℕ) : ℕ × ℕ → ℕ := device_image

/-- The notebook's whole device path: upload the host buffer, launch
`mandel_kernel`, download the result. -/
def gpu_render (griddim blockdim : ℕ × ℕ) (min_x max_x min_y max_y : ℚ)
    (image : ℕ × ℕ → ℕ) (iters height width : ℕ) : ℕ × ℕ → ℕ :=
  to_host (mandel_kernel_launch griddim blockdim min_x max_x min_y max_y
    (to_device image) iters height width)

/-- The value every backend computes for pixel `p = (row y, col x)`:
`mandel` at the top-left-corner sample point of that pixel. -/
def pixelVal (min_x max_x min_y max_y : ℚ) (iters height width : ℕ) (p : ℕ × ℕ) : ℕ :=
  mandel (min_x + (p.2 : ℚ) * pixel_size_x min_x max_x width)
         (min_y + (p.1 : ℚ) * pixel_size_y min_y max_y height) iters

/-- Replaying a list of pixel stores `image[p] = f p` (uint8 semantics). -/
def runWrites (f : ℕ × ℕ → ℕ) (ps : List (ℕ × ℕ)) (image : ℕ × ℕ → ℕ) : ℕ × ℕ → ℕ :=
  ps.foldl (fun img p => writeU8 img p.1 p.2 (f p)) image

lemma runWrites_cons (f : ℕ × ℕ → ℕ) (p : ℕ × ℕ) (ps : List (ℕ × ℕ))
    (image : ℕ × ℕ → ℕ) :
    runWrites f (p :: ps) image = runWrites f ps (writeU8 image p.1 p.2 (f p)) := rfl

/-- Since the stored value is a function of the pixel alone, a write replay is
the pointwise overwrite of the visited pixels. -/
lemma runWrites_apply (f : ℕ × ℕ → ℕ) :
    ∀ (ps : List (ℕ × ℕ)) (image : ℕ × ℕ → ℕ) (q : ℕ × ℕ),
      runWrites f ps image q = if q ∈ ps then f q % 256 else image q := by
  intro ps
  induction ps with
  | nil =>
    intro image q
    simp [runWrites]
  | cons p ps ih =>
    intro image q
    rw [runWrites_cons, ih]
    by_cases hq : q ∈ ps
    · simp [hq]
    · rw [if_neg hq]
      unfold writeU8
      by_cases hqp : q = p
      · simp [hqp]
      · have : ¬ q = (p.1, p.2) := by simpa using hqp
        simp [this, hq, hqp]

lemma mandelLoop_jit_eq (cr ci : ℚ) :
    ∀ (fuel : ℕ) (zr zi : ℚ) (i : ℕ),
      mandelLoop_jit cr ci zr zi i fuel = mandelLoop cr ci zr zi i fuel := by
  intro fuel
  induction fuel with
  | zero => intro zr zi i; rfl
  | succ fuel ih =>
    intro zr zi i
    simp only [mandelLoop_jit, mandelLoop]
    split_ifs with h
    · rfl
    · exact ih _ _ _

/-- The jit-compiled `mandel` computes the same function as the interpreted
one (identical body). -/
lemma mandel_jit_eq (x y : ℚ) (N : ℕ) : mandel_jit x y N = mandel x y N :=
  mandelLoop_jit_eq x y N 0 0 0

/-- The pixels visited by the sequential CPU renderer, in loop order
(outer `x`, inner `y`), as `(row, col)` pairs. -/
def seqPixelList (width height : ℕ) : List (ℕ × ℕ) :=
  (List.range width).flatMap fun x => (List.range height).map fun y => (y, x)

/-- The pixels visited by the single thread at `cuda.grid(2) = (sx, sy)` with
axis strides `SX`, `SY`, as `(row, col)` pairs in loop order. -/
def threadPixels (sx sy SX SY width height : ℕ) : List (ℕ × ℕ) :=
  (strideList sx width SX).flatMap fun x =>
    (strideList sy height SY).map fun y => (y, x)

/-- The pixels visited by the whole kernel launch: all threads, each running
its two grid-stride loops. -/
def kernelPixelList (griddim blockdim : ℕ × ℕ) (width height : ℕ) : List (ℕ × ℕ) :=
  (axisThreads griddim.1 blockdim.1).flatMap fun sx =>
    (axisThreads griddim.2 blockdim.2).flatMap fun sy =>
      threadPixels sx sy (griddim.1 * blockdim.1) (griddim.2 * blockdim.2)
        width height

lemma foldl_flatMap {α β γ : Type} (g : γ → β → γ) (l : List α) (f : α → List β)
    (init : γ) :
    (l.flatMap f).foldl g init = l.foldl (fun acc a => (f a).foldl g acc) init := by
  induction l generalizing init with
  | nil => rfl
  | cons a l ih => simp [List.flatMap_cons, List.foldl_append, ih]

lemma create_fractal_eq_runWrites (min_x max_x min_y max_y : ℚ) (image : ℕ × ℕ → ℕ)
    (iters height width : ℕ) :
    create_fractal min_x max_x min_y max_y image iters height width =
      runWrites (pixelVal min_x max_x min_y max_y iters height width)
        (seqPixelList width height) image := by
  unfold create_fractal runWrites seqPixelList pixelVal
  rw [foldl_flatMap]
  simp only [List.foldl_map]

lemma create_fractal_jit_eq (min_x max_x min_y max_y : ℚ) (image : ℕ × ℕ → ℕ)
    (iters height width : ℕ) :
    create_fractal_jit min_x max_x min_y max_y image iters height width =
      create_fractal min_x max_x min_y max_y image iters height width := by
  unfold create_fractal_jit create_fractal
  simp only [mandel_jit_eq]

lemma mandel_kernel_launch_eq_runWrites (griddim blockdim : ℕ × ℕ)
    (min_x max_x min_y max_y : ℚ) (image : ℕ × ℕ → ℕ) (iters height width : ℕ) :
    mandel_kernel_launch griddim blockdim min_x max_x min_y max_y image iters
        height width =
      runWrites (pixelVal min_x max_x min_y max_y iters height width)
        (kernelPixelList griddim blockdim width height) image := by
  unfold mandel_kernel_launch mandel_kernel_thread runWrites kernelPixelList
    threadPixels pixelVal mandel_gpu
  simp only [foldl_flatMap, List.foldl_map, mandel_jit_eq]

lemma stride_count_iff (s stop step k : ℕ) (hstep : 0 < step) :
    k < (stop - s + step - 1) / step ↔ s + k * step < stop := by
  rw [Nat.lt_iff_add_one_le, Nat.le_div_iff_mul_le hstep, add_one_mul]
  generalize k * step = m
  omega

/-- Membership in Python `range(start, stop, step)` for positive `step`. -/
lemma mem_strideList {n : ℕ} (s stop step : ℕ) (hstep : 0 < step) :
    n ∈ strideList s stop step ↔ (∃ k, n = s + k * step) ∧ n < stop := by
  unfold strideList
  simp only [List.mem_map, List.mem_range]
  constructor
  · rintro ⟨k, hk, rfl⟩
    exact ⟨⟨k, rfl⟩, (stride_count_iff s stop step k hstep).mp hk⟩
  · rintro ⟨⟨k, rfl⟩, hlt⟩
    exact ⟨k, (stride_count_iff s stop step k hstep).mpr hlt, rfl⟩

lemma strideList_nodup (s stop step : ℕ) (hstep : 0 < step) :
    (strideList s stop step).Nodup := by
  unfold strideList
  refine List.Nodup.map ?_ (List.nodup_range _)
  intro a b hab
  have hab2 : s + a * step = s + b * step := hab
  have h : a * step = b * step := by omega
  exact Nat.eq_of_mul_eq_mul_right hstep h

lemma mem_axisThreads {n : ℕ} (gd bd : ℕ) : n ∈ axisThreads gd bd ↔ n < gd * bd := by
  unfold axisThreads
  simp only [List.mem_flatMap, List.mem_map, List.mem_range]
  constructor
  · rintro ⟨b, hb, t, ht, rfl⟩
    have h1 : bd * (b + 1) ≤ bd * gd := Nat.mul_le_mul_left bd hb
    rw [Nat.mul_succ] at h1
    have h2 : bd * gd = gd * bd := Nat.mul_comm bd gd
    omega
  · intro h
    have hbd : 0 < bd := by
      rcases Nat.eq_zero_or_pos bd with rfl | h2
      · rw [Nat.mul_zero] at h; omega
      · exact h2
    exact ⟨n / bd, (Nat.div_lt_iff_lt_mul hbd).mpr h, n % bd, Nat.mod_lt n hbd,
      Nat.div_add_mod n bd⟩

lemma axisThreads_nodup (gd bd : ℕ) : (axisThreads gd bd).Nodup := by
  unfold axisThreads
  rw [List.nodup_flatMap]
  constructor
  · intro b _
    refine List.Nodup.map ?_ (List.nodup_range _)
    intro t t' htt
    have htt2 : bd * b + t = bd * b + t' := htt
    omega
  · refine List.Nodup.pairwise_of_forall_ne (List.nodup_range _) ?_
    intro b hb b' hb' hne a ha ha'
    simp only [List.mem_map, List.mem_range] at ha ha'
    obtain ⟨t, ht, rfl⟩ := ha
    obtain ⟨t', ht', heq⟩ := ha'
    have hbd : 0 < bd := by omega
    apply hne
    have e1 : (bd * b + t) / bd = b := by
      rw [Nat.mul_add_div hbd, Nat.div_eq_of_lt ht, Nat.add_zero]
    have e2 : (bd * b' + t') / bd = b' := by
      rw [Nat.mul_add_div hbd, Nat.div_eq_of_lt ht', Nat.add_zero]
    rw [← e1, ← e2, heq]

lemma mem_threadPixels {p : ℕ × ℕ} (sx sy SX SY w h : ℕ) (hX : 0 < SX)
    (hY : 0 < SY) :
    p ∈ threadPixels sx sy SX SY w h ↔
      (∃ k, p.2 = sx + k * SX) ∧ p.2 < w ∧ (∃ k, p.1 = sy + k * SY) ∧ p.1 < h := by
  unfold threadPixels
  simp only [List.mem_flatMap, List.mem_map]
  constructor
  · rintro ⟨x, hx, y, hy, rfl⟩
    have hx2 := (mem_strideList sx w SX hX).mp hx
    have hy2 := (mem_strideList sy h SY hY).mp hy
    exact ⟨hx2.1, hx2.2, hy2.1, hy2.2⟩
  · rintro ⟨hk2, hlt2, hk1, hlt1⟩
    exact ⟨p.2, (mem_strideList sx w SX hX).mpr ⟨hk2, hlt2⟩, p.1,
      (mem_strideList sy h SY hY).mpr ⟨hk1, hlt1⟩, by simp⟩

lemma threadPixels_nodup (sx sy SX SY w h : ℕ) (hX : 0 < SX) (hY : 0 < SY) :
    (threadPixels sx sy SX SY w h).Nodup := by
  unfold threadPixels
  rw [List.nodup_flatMap]
  constructor
  · intro x _
    refine List.Nodup.map ?_ (strideList_nodup sy h SY hY)
    intro a b hab
    simpa using hab
  · refine List.Nodup.pairwise_of_forall_ne (strideList_nodup sx w SX hX) ?_
    intro x hx x' hx' hne a ha ha'
    simp only [List.mem_map] at ha ha'
    obtain ⟨y, _, rfl⟩ := ha
    obtain ⟨y', _, heq⟩ := ha'
    injection heq with hy2 hx2
    exact hne hx2.symm

/-- A pixel visited by the thread at `(sx, sy)` determines that thread:
its column is `sx` modulo the x-stride and its row is `sy` modulo the
y-stride. -/
lemma threadPixels_mod {p : ℕ × ℕ} (sx sy SX SY w h : ℕ) (hsx : sx < SX)
    (hsy : sy < SY) (hp : p ∈ threadPixels sx sy SX SY w h) :
    p.2 % SX = sx ∧ p.1 % SY = sy := by
  have hX : 0 < SX := by omega
  have hY : 0 < SY := by omega
  obtain ⟨⟨k, hk⟩, _, ⟨k2, hk2⟩, _⟩ := (mem_threadPixels sx sy SX SY w h hX hY).mp hp
  constructor
  · rw [hk, Nat.add_mul_mod_self_right]
    exact Nat.mod_eq_of_lt hsx
  · rw [hk2, Nat.add_mul_mod_self_right]
    exact Nat.mod_eq_of_lt hsy

lemma mem_seqPixelList {p : ℕ × ℕ} (w h : ℕ) :
    p ∈ seqPixelList w h ↔ p.2 < w ∧ p.1 < h := by
  unfold seqPixelList
  simp only [List.mem_flatMap, List.mem_map, List.mem_range]
  constructor
  · rintro ⟨x, hx, y, hy, rfl⟩
    exact ⟨hx, hy⟩
  · rintro ⟨hw, hh⟩
    exact ⟨p.2, hw, p.1, hh, by simp⟩

/-- No pixel is visited twice by the launch: the flattened visit list of all
threads has no duplicates. -/
lemma kernelPixelList_nodup (griddim blockdim : ℕ × ℕ) (w h : ℕ)
    (h1 : 0 < griddim.1) (h2 : 0 < griddim.2) (h3 : 0 < blockdim.1)
    (h4 : 0 < blockdim.2) :
    (kernelPixelList griddim blockdim w h).Nodup := by
  have hX : 0 < griddim.1 * blockdim.1 := Nat.mul_pos h1 h3
  have hY : 0 < griddim.2 * blockdim.2 := Nat.mul_pos h2 h4
  unfold kernelPixelList
  rw [List.nodup_flatMap]
  constructor
  · intro sx hsx
    rw [List.nodup_flatMap]
    constructor
    · intro sy hsy
      exact threadPixels_nodup sx sy _ _ w h hX hY
    · refine List.Nodup.pairwise_of_forall_ne (axisThreads_nodup _ _) ?_
      intro sy hsy sy' hsy' hne a ha ha'
      have hsxlt := (mem_axisThreads griddim.1 blockdim.1).mp hsx
      have hsylt := (mem_axisThreads griddim.2 blockdim.2).mp hsy
      have hsylt2 := (mem_axisThreads griddim.2 blockdim.2).mp hsy'
      apply hne
      rw [← (threadPixels_mod sx sy _ _ w h hsxlt hsylt ha).2,
        ← (threadPixels_mod sx sy' _ _ w h hsxlt hsylt2 ha').2]
  · refine List.Nodup.pairwise_of_forall_ne (axisThreads_nodup _ _) ?_
    intro sx hsx sx' hsx' hne a ha ha'
    simp only [List.mem_flatMap] at ha ha'
    obtain ⟨sy, hsy, ha⟩ := ha
    obtain ⟨sy', hsy', ha'⟩ := ha'
    have hsxlt := (mem_axisThreads griddim.1 blockdim.1).mp hsx
    have hsxlt2 := (mem_axisThreads griddim.1 blockdim.1).mp hsx'
    have hsylt := (mem_axisThreads griddim.2 blockdim.2).mp hsy
    have hsylt2 := (mem_axisThreads griddim.2 blockdim.2).mp hsy'
    apply hne
    rw [← (threadPixels_mod sx sy _ _ w h hsxlt hsylt ha).1,
      ← (threadPixels_mod sx' sy' _ _ w h hsxlt2 hsylt2 ha').1]

/-- No pixel is skipped, and nothing outside the image is touched: the launch
visits exactly the pixels of the `height × width` image. -/
lemma mem_kernelPixelList {p : ℕ × ℕ} (griddim blockdim : ℕ × ℕ) (w h : ℕ)
    (h1 : 0 < griddim.1) (h2 : 0 < griddim.2) (h3 : 0 < blockdim.1)
    (h4 : 0 < blockdim.2) :
    p ∈ kernelPixelList griddim blockdim w h ↔ p.2 < w ∧ p.1 < h := by
  have hX : 0 < griddim.1 * blockdim.1 := Nat.mul_pos h1 h3
  have hY : 0 < griddim.2 * blockdim.2 := Nat.mul_pos h2 h4
  unfold kernelPixelList
  simp only [List.mem_flatMap]
  constructor
  · rintro ⟨sx, hsx, sy, hsy, hp⟩
    have hp2 := (mem_threadPixels sx sy _ _ w h hX hY).mp hp
    exact ⟨hp2.2.1, hp2.2.2.2⟩
  · rintro ⟨hw, hh⟩
    refine ⟨p.2 % (griddim.1 * blockdim.1),
      (mem_axisThreads _ _).mpr (Nat.mod_lt p.2 hX),
      p.1 % (griddim.2 * blockdim.2),
      (mem_axisThreads _ _).mpr (Nat.mod_lt p.1 hY), ?_⟩
    refine (mem_threadPixels _ _ _ _ w h hX hY).mpr
      ⟨⟨p.2 / (griddim.1 * blockdim.1), ?_⟩, hw,
       ⟨p.1 / (griddim.2 * blockdim.2), ?_⟩, hh⟩
    · exact (Nat.mod_add_div' p.2 (griddim.1 * blockdim.1)).symm
    · exact (Nat.mod_add_div' p.1 (griddim.2 * blockdim.2)).symm

/-- Pointwise reading of the sequential renderer's output buffer. -/
lemma create_fractal_apply (min_x max_x min_y max_y : ℚ) (image : ℕ × ℕ → ℕ)
    (iters height width : ℕ) (q : ℕ × ℕ) :
    create_fractal min_x max_x min_y max_y image iters height width q =
      if q.2 < width ∧ q.1 < height
      then pixelVal min_x max_x min_y max_y iters height width q % 256
      else image q := by
  rw [create_fractal_eq_runWrites, runWrites_apply]
  simp only [mem_seqPixelList]

/-- Pointwise reading of the device path's output buffer, for a positive
launch configuration. -/
lemma gpu_render_apply (griddim blockdim : ℕ × ℕ) (min_x max_x min_y max_y : ℚ)
    (image : ℕ × ℕ → ℕ) (iters height width : ℕ) (h1 : 0 < griddim.1)
    (h2 : 0 < griddim.2) (h3 : 0 < blockdim.1) (h4 : 0 < blockdim.2) (q : ℕ × ℕ) :
    gpu_render griddim blockdim min_x max_x min_y max_y image iters height width q =
      if q.2 < width ∧ q.1 < height
      then pixelVal min_x max_x min_y max_y iters height width q % 256
      else image q := by
  unfold gpu_render to_host to_device
  rw [mandel_kernel_launch_eq_runWrites, runWrites_apply]
  simp only [mem_kernelPixelList griddim blockdim width height h1 h2 h3 h4]

/-- Claim C1: for every `x`, `y` and iteration cap, `mandel x y max_iters`
returns the smallest loop index `i < max_iters` at which the squared modulus
of `z_{i+1} = z_i^2 + c` (with `z_0 = 0`, `c = x + iy`) first reaches 4
(test applied after the update), and returns `max_iters` when no such index
exists. -/
theorem mandel_returns_least_escape_index (x y : ℚ) (max_iters : ℕ) :
    (mandel x y max_iters < max_iters ∧ escapesAt x y (mandel x y max_iters) ∧
      ∀ j, j < mandel x y max_iters → ¬ escapesAt x y j) ∨
    (mandel x y max_iters = max_iters ∧ ∀ j, j < max_iters → ¬ escapesAt x y j) :=
  mandel_char x y max_iters

/-- Claim C4: for positive `N`, `mandel 0 0 N = N` (the origin never escapes)
and `mandel 2 0 N = 0` (the first update gives `z = 2`, squared modulus 4). -/
theorem mandel_known_fixed_points (N : ℕ) (h : 0 < N) :
    mandel 0 0 N = N ∧ mandel 2 0 N = 0 :=
  ⟨mandel_zero_zero N, mandel_two_zero N h⟩

theorem mandel_known_fixed_points_witness :
    0 < 3 ∧ (mandel 0 0 3 = 3 ∧ mandel 2 0 3 = 0) :=
  ⟨by decide, mandel_known_fixed_points 3 (by decide)⟩

/-- Claim C6: raising the iteration cap never decreases `mandel`'s value; a
reported escape index stays the answer under every larger cap; and a point
that never escapes below the cap reports the cap itself. -/
theorem mandel_monotone_in_cap (x y : ℚ) (N1 N2 : ℕ) (h : N1 ≤ N2) :
    mandel x y N1 ≤ mandel x y N2 ∧
    (mandel x y N1 < N1 → ∀ M, mandel x y N1 < M → mandel x y M = mandel x y N1) ∧
    ((∀ i, i < N1 → ¬ escapesAt x y i) → mandel x y N1 = N1) := by
  refine ⟨mandel_cap_mono x y N1 N2 h, mandel_escape_stable x y N1, ?_⟩
  intro hne
  rcases mandel_char x y N1 with ⟨hlt, h2, _⟩ | ⟨h1, _⟩
  · exact absurd h2 (hne _ hlt)
  · exact h1

theorem mandel_monotone_in_cap_witness :
    (1 : ℕ) ≤ 3 ∧ mandel 2 0 1 ≤ mandel 2 0 3 ∧ mandel 2 0 3 = mandel 2 0 1 := by
  have h := mandel_monotone_in_cap 2 0 1 3 (by decide)
  have h0 : mandel 2 0 1 = 0 := by norm_num [mandel, mandelLoop]
  exact ⟨by decide, h.1, h.2.1 (by omega) 3 (by omega)⟩

/-- Claim C9: `mandel` always terminates (it is a total function of `fuel`
`max_iters`), and executes the update `z = z*z + c` at most `max_iters`
times, as witnessed by the instrumented step counter. -/
theorem mandel_terminates_bounded_steps (x y : ℚ) (max_iters : ℕ) :
    (mandelSteps x y max_iters).1 = mandel x y max_iters ∧
    (mandelSteps x y max_iters).2 ≤ max_iters :=
  ⟨mandelSteps_fst x y max_iters, mandelSteps_le x y max_iters⟩

/-- Claim C10: a zero iteration cap performs no updates and yields 0 (the
loop `for i in range(0)` never runs and `max_iters = 0` is returned); no
error is raised. -/
theorem mandel_zero_cap (x y : ℚ) :
    mandel x y 0 = 0 ∧ (mandelSteps x y 0).2 = 0 :=
  ⟨rfl, rfl⟩

/-- Claim C2: for every viewport, cap, image dimensions and positive launch
configuration, the sequential CPU renderer, the jit-compiled CPU renderer
and the device path produce identical image buffers. -/
theorem backends_bit_identical (min_x max_x min_y max_y : ℚ) (image : ℕ × ℕ → ℕ)
    (iters height width : ℕ) (griddim blockdim : ℕ × ℕ) (h1 : 0 < griddim.1)
    (h2 : 0 < griddim.2) (h3 : 0 < blockdim.1) (h4 : 0 < blockdim.2) :
    create_fractal_jit min_x max_x min_y max_y image iters height width =
      create_fractal min_x max_x min_y max_y image iters height width ∧
    gpu_render griddim blockdim min_x max_x min_y max_y image iters height width =
      create_fractal min_x max_x min_y max_y image iters height width := by
  refine ⟨create_fractal_jit_eq min_x max_x min_y max_y image iters height width, ?_⟩
  funext q
  rw [gpu_render_apply griddim blockdim min_x max_x min_y max_y image iters height
    width h1 h2 h3 h4 q, create_fractal_apply]

theorem backends_bit_identical_witness :
    (0 < (32, 16).1 ∧ 0 < (32, 16).2 ∧ 0 < (32, 8).1 ∧ 0 < (32, 8).2) ∧
    (create_fractal_jit (-2) 1 (-1) 1 (fun _ => 0) 20 1024 1536 =
        create_fractal (-2) 1 (-1) 1 (fun _ => 0) 20 1024 1536 ∧
      gpu_render (32, 16) (32, 8) (-2) 1 (-1) 1 (fun _ => 0) 20 1024 1536 =
        create_fractal (-2) 1 (-1) 1 (fun _ => 0) 20 1024 1536) :=
  ⟨⟨by decide, by decide, by decide, by decide⟩,
    backends_bit_identical (-2) 1 (-1) 1 (fun _ => 0) 20 1024 1536 (32, 16) (32, 8)
      (by decide) (by decide) (by decide) (by decide)⟩

/-- Claim C3: for every positive 2D grid and block dimensions — whether the
total thread count is smaller or larger than the pixel count — the
grid-stride loops visit every pixel `(x, y)` with `x < width`, `y < height`
exactly once (the flattened visit list of all threads has no duplicates),
and visit nothing else. -/
theorem grid_stride_exact_coverage (griddim blockdim : ℕ × ℕ) (width height : ℕ)
    (h1 : 0 < griddim.1) (h2 : 0 < griddim.2) (h3 : 0 < blockdim.1)
    (h4 : 0 < blockdim.2) :
    (kernelPixelList griddim blockdim width height).Nodup ∧
    ∀ p : ℕ × ℕ, p ∈ kernelPixelList griddim blockdim width height ↔
      p.2 < width ∧ p.1 < height :=
  ⟨kernelPixelList_nodup griddim blockdim width height h1 h2 h3 h4,
   fun _ => mem_kernelPixelList griddim blockdim width height h1 h2 h3 h4⟩

theorem grid_stride_exact_coverage_witness :
    (0 < (1, 1).1 ∧ 0 < (1, 1).2 ∧ 0 < (2, 1).1 ∧ 0 < (2, 1).2) ∧
    (kernelPixelList (1, 1) (2, 1) 3 2).Nodup ∧
    (((1, 2) : ℕ × ℕ) ∈ kernelPixelList (1, 1) (2, 1) 3 2 ↔ 2 < 3 ∧ 1 < 2) := by
  have h := grid_stride_exact_coverage (1, 1) (2, 1) 3 2 (by decide) (by decide)
    (by decide) (by decide)
  exact ⟨⟨by decide, by decide, by decide, by decide⟩, h.1, h.2 (1, 2)⟩

/-- Claim C5: the renderer samples pixel `(x, y)` at
`(min_x + x * pixel_size_x, min_y + y * pixel_size_y)` with
`pixel_size_x = (max_x - min_x)/width`, `pixel_size_y = (max_y - min_y)/height`
(top-left corner convention, no half-pixel offset, so pixel `(0,0)` samples
`(min_x, min_y)`), and stores the result at buffer position `(row y, col x)`. -/
theorem pixel_mapping_top_left (min_x max_x min_y max_y : ℚ) (image : ℕ × ℕ → ℕ)
    (iters height width x y : ℕ) (hx : x < width) (hy : y < height) :
    create_fractal min_x max_x min_y max_y image iters height width (y, x) =
      mandel (min_x + (x : ℚ) * ((max_x - min_x) / (width : ℚ)))
        (min_y + (y : ℚ) * ((max_y - min_y) / (height : ℚ))) iters % 256 ∧
    min_x + (0 : ℚ) * ((max_x - min_x) / (width : ℚ)) = min_x ∧
    min_y + (0 : ℚ) * ((max_y - min_y) / (height : ℚ)) = min_y := by
  refine ⟨?_, by ring, by ring⟩
  rw [create_fractal_apply]
  rw [if_pos (⟨hx, hy⟩ : ((y, x) : ℕ × ℕ).2 < width ∧ ((y, x) : ℕ × ℕ).1 < height)]
  rfl

theorem pixel_mapping_top_left_witness :
    ((1 : ℕ) < 2 ∧ (1 : ℕ) < 2) ∧
    (create_fractal 0 1 0 1 (fun _ => 0) 1 2 2 (1, 1) =
        mandel (0 + ((1 : ℕ) : ℚ) * ((1 - 0) / ((2 : ℕ) : ℚ)))
          (0 + ((1 : ℕ) : ℚ) * ((1 - 0) / ((2 : ℕ) : ℚ))) 1 % 256 ∧
      0 + (0 : ℚ) * ((1 - 0) / ((2 : ℕ) : ℚ)) = 0 ∧
      0 + (0 : ℚ) * ((1 - 0) / ((2 : ℕ) : ℚ)) = 0) :=
  ⟨⟨by decide, by decide⟩,
    pixel_mapping_top_left 0 1 0 1 (fun _ => 0) 1 2 2 1 1 (by decide) (by decide)⟩

/-- Claim C7 as stated is false on the code: invoked with a malformed
viewport (`min_x = 1 ≥ 0 = max_x`), `create_fractal` raises nothing and
writes the buffer — pixel `(0,0)` ends at value 1, not its initial 0. -/
theorem no_validation_counterexample :
    ((0 : ℚ) ≤ 1) ∧
    create_fractal 1 0 0 1 (fun _ => 0) 1 1 1 (0, 0) = 1 ∧ (1 : ℕ) ≠ 0 := by
  refine ⟨by norm_num, ?_, by decide⟩
  rw [create_fractal_apply]
  rw [if_pos (⟨by decide, by decide⟩ :
    ((0, 0) : ℕ × ℕ).2 < 1 ∧ ((0, 0) : ℕ × ℕ).1 < 1)]
  norm_num [pixelVal, pixel_size_x, pixel_size_y, mandel, mandelLoop]

/-- Claim C7 amended: the code performs no input validation.  With a
malformed viewport (`max_x ≤ min_x`) the renderer raises no error and still
writes every in-range pixel with the degenerately-sampled escape value, and
a zero iteration cap is processed silently, storing 0 at every pixel. -/
theorem renderer_no_validation (min_x max_x min_y max_y : ℚ) (image : ℕ × ℕ → ℕ)
    (iters height width x y : ℕ) (_hmal : max_x ≤ min_x) (hx : x < width)
    (hy : y < height) :
    create_fractal min_x max_x min_y max_y image iters height width (y, x) =
      pixelVal min_x max_x min_y max_y iters height width (y, x) % 256 ∧
    create_fractal min_x max_x min_y max_y image 0 height width (y, x) = 0 := by
  constructor
  · have h := create_fractal_apply min_x max_x min_y max_y image iters height width (y, x)
    rw [if_pos (⟨hx, hy⟩ :
      ((y, x) : ℕ × ℕ).2 < width ∧ ((y, x) : ℕ × ℕ).1 < height)] at h
    exact h
  · have h := create_fractal_apply min_x max_x min_y max_y image 0 height width (y, x)
    rw [if_pos (⟨hx, hy⟩ :
      ((y, x) : ℕ × ℕ).2 < width ∧ ((y, x) : ℕ × ℕ).1 < height)] at h
    rw [h]
    rfl

theorem renderer_no_validation_witness :
    ((0 : ℚ) ≤ 1 ∧ (0 : ℕ) < 1 ∧ (0 : ℕ) < 1) ∧
    (create_fractal 1 0 0 1 (fun _ => 0) 1 1 1 (0, 0) =
        pixelVal 1 0 0 1 1 1 1 (0, 0) % 256 ∧
      create_fractal 1 0 0 1 (fun _ => 0) 0 1 1 (0, 0) = 0) :=
  ⟨⟨by norm_num, by decide, by decide⟩,
    renderer_no_validation 1 0 0 1 (fun _ => 0) 1 1 1 0 0 (by norm_num)
      (by decide) (by decide)⟩

/-- Claim C8 as stated is false on the code: the uint8 buffer wraps the
iteration count modulo 256 instead of clamping it to `[0, 255]`.  With cap
300 on a 1×1 image sampling the origin, the count is 300, the clamped value
would be 255, but the stored value is `300 % 256 = 44`. -/
theorem uint8_wrap_counterexample :
    create_fractal 0 1 0 1 (fun _ => 0) 300 1 1 (0, 0) = 44 ∧
    mandel 0 0 300 = 300 ∧ min (mandel 0 0 300) 255 = 255 ∧ (44 : ℕ) ≠ 255 := by
  have hm := mandel_zero_zero 300
  refine ⟨?_, hm, by rw [hm]; omega, by decide⟩
  rw [create_fractal_apply]
  rw [if_pos (⟨by decide, by decide⟩ :
    ((0, 0) : ℕ × ℕ).2 < 1 ∧ ((0, 0) : ℕ × ℕ).1 < 1)]
  norm_num [pixelVal, pixel_size_x, pixel_size_y, mandel_zero_zero]

/-- Claim C8 amended: after a render, every in-range element of the uint8
buffer holds that pixel's iteration count reduced modulo 256; whenever the
cap is at most 255 — in particular in the notebook's cap-20 scenario — the
stored value equals the count and is bounded by the cap. -/
theorem buffer_values_mod256 (min_x max_x min_y max_y : ℚ) (image : ℕ × ℕ → ℕ)
    (iters height width x y : ℕ) (hx : x < width) (hy : y < height) :
    create_fractal min_x max_x min_y max_y image iters height width (y, x) =
      pixelVal min_x max_x min_y max_y iters height width (y, x) % 256 ∧
    (iters ≤ 255 →
      create_fractal min_x max_x min_y max_y image iters height width (y, x) =
        pixelVal min_x max_x min_y max_y iters height width (y, x) ∧
      create_fractal min_x max_x min_y max_y image iters height width (y, x) ≤
        iters) := by
  have h := create_fractal_apply min_x max_x min_y max_y image iters height width (y, x)
  rw [if_pos (⟨hx, hy⟩ :
    ((y, x) : ℕ × ℕ).2 < width ∧ ((y, x) : ℕ × ℕ).1 < height)] at h
  have hle : pixelVal min_x max_x min_y max_y iters height width (y, x) ≤ iters :=
    mandel_le_cap _ _ _
  refine ⟨h, fun h255 => ?_⟩
  have hlt : pixelVal min_x max_x min_y max_y iters height width (y, x) < 256 := by
    omega
  rw [Nat.mod_eq_of_lt hlt] at h
  exact ⟨h, by omega⟩

theorem buffer_values_mod256_witness :
    ((0 : ℕ) < 1536 ∧ (0 : ℕ) < 1024 ∧ (20 : ℕ) ≤ 255) ∧
    create_fractal (-2) 1 (-1) 1 (fun _ => 0) 20 1024 1536 (0, 0) ≤ 20 := by
  have h := buffer_values_mod256 (-2) 1 (-1) 1 (fun _ => 0) 20 1024 1536 0 0
    (by decide) (by decide)
  exact ⟨⟨by decide, by decide, by decide⟩, (h.2 (by decide)).2⟩
